import Mathlib

/-!
Shallow embedding of the core logic of the community-post archiver:
the relative-date estimator (utils.py), the repository loader and the
order/membership reconcilers (archiver.py), and the post query engine
(data_processor.py).  Timestamps and datetimes are modelled as integers
(seconds); strings are modelled as lists of characters with ASCII
semantics for the character classes the source's regexes use.
-/

namespace YtArchive

open List

/-! Character-level helpers modelling the regex primitives used by
`utils.parse_relative_date`: the character class `\d` (modelled on its
ASCII range `0`-`9`), the class `\s`, `str.lower` and `str.strip`. -/

/-- Model of the regex class `\d` on ASCII input. -/
def isDigitChar (c : Char) : Bool := 48 ≤ c.toNat && c.toNat ≤ 57

/-- Model of the regex class `\s` on ASCII input: space, tab, LF, VT, FF, CR. -/
def isSpaceChar (c : Char) : Bool := c.toNat == 32 || (9 ≤ c.toNat && c.toNat ≤ 13)

/-- Model of `str.lower` on one ASCII character. -/
def toLowerChar (c : Char) : Char :=
  if 65 ≤ c.toNat && c.toNat ≤ 90 then Char.ofNat (c.toNat + 32) else c

/-- Value of `int(...)` applied to a nonempty run of decimal digits. -/
def digitsVal (ds : List Char) : Nat := ds.foldl (fun a c => 10 * a + (c.toNat - 48)) 0

/-- Model of `str.strip` (drop leading and trailing whitespace). -/
def stripChars (s : List Char) : List Char :=
  ((s.dropWhile isSpaceChar).reverse.dropWhile isSpaceChar).reverse

/-- Model of the Python substring test `pat in s`. -/
def containsSub (pat : List Char) : List Char → Bool
  | [] => pat.isEmpty
  | c :: cs => pat.isPrefixOf (c :: cs) || containsSub pat cs

/-- Attempt of the regex `(\d+)\s*<pat>` anchored at the start of `s`, returning
the value of the digit group.  Greedy matching without backtracking is faithful
here because the unit literals start with a letter, which is neither a digit
nor whitespace. -/
def matchNumAt (pat : List Char) (s : List Char) : Option Nat :=
  let ds := s.takeWhile isDigitChar
  if ds.isEmpty then none
  else if pat.isPrefixOf ((s.dropWhile isDigitChar).dropWhile isSpaceChar) then
    some (digitsVal ds)
  else none

/-- Model of `re.search` for the pattern `(\d+)\s*<pat>`: try every start
position left to right, returning the leftmost match's digit-group value. -/
def searchNum (pat : List Char) : List Char → Option Nat
  | [] => none
  | c :: cs =>
    match matchNumAt pat (c :: cs) with
    | some v => some v
    | none => searchNum pat cs

/-- The ordered `patterns` table of `parse_relative_date`, paired with the
number of seconds each unit denotes in the source's arithmetic
(`month = 30` days, `year = 365` days, the documented approximations). -/
def unitPatterns : List (List Char × Int) :=
  [("second".data, 1), ("minute".data, 60), ("hour".data, 3600), ("day".data, 86400),
   ("week".data, 604800), ("month".data, 2592000), ("year".data, 31536000)]

/-- The `for pattern, unit in patterns` loop body: first pattern that matches
wins, and yields `value * unit_seconds`. -/
def findUnitValue : List (List Char × Int) → List Char → Option Int
  | [], _ => none
  | (u, m) :: rest, s =>
    match searchNum u s with
    | some v => some (m * (v : Int))
    | none => findUnitValue rest s

/-- The source's `relative_date.lower().strip()` normalisation. -/
def normalizePhrase (s : List Char) : List Char := stripChars (s.map toLowerChar)

/-- Embedding of `utils.parse_relative_date`.  The reference time `now`
(`datetime.now()` in the source) is passed explicitly; the result is the
estimated absolute time, or `none` where the source returns `None`. -/
def parse_relative_date (relative_date : List Char) (now : Int) : Option Int :=
  if relative_date.isEmpty then none
  else
    match findUnitValue unitPatterns (normalizePhrase relative_date) with
    | some off => some (now - off)
    | none =>
      if containsSub "just now".data (normalizePhrase relative_date) ||
          containsSub "moments ago".data (normalizePhrase relative_date) then some now
      else if containsSub "yesterday".data (normalizePhrase relative_date) then
        some (now - 86400)
      else none

/-- The unit word of a supported phrase followed by the plural `s` and
` ago`, as it appears in phrases like `3 seconds ago`. -/
def pluralAgo (u : List Char) : List Char := ' ' :: (u ++ ('s' :: (' ' :: "ago".data)))

/-! Data model.  `CommunityPost` mirrors the dataclass in archiver.py;
the opaque display strings (`text`, `num_comments`, `num_thumbs_up`) and the
opaque poll payload are represented only as far as the verified code inspects
them (`poll` by its presence).  `when_archived` is the `datetime.fromisoformat`
parse of the recorded timestamp string, or `none` when the string is empty or
unparseable (both call sites apply exactly this fallible parse). -/

/-- Embedding of the `CommunityPost` dataclass. -/
structure CommunityPost where
  post_id : List Char
  url : List Char
  text : List Char
  images : List (List Char)
  local_images : List (List Char)
  is_members : Bool
  relative_date : List Char
  estimated_date : Option Int
  when_archived : Option Int
  has_poll : Bool
deriving DecidableEq

/-- Contents of one `post.json` record as the loader consumes it
(fields after `dict.get` defaulting). -/
structure PostRecord where
  url : List Char
  text : List Char
  images : List (List Char)
  is_members : Bool
  relative_date : List Char
  when_archived : Option Int
  has_poll : Bool
deriving DecidableEq

/-- Last segment of a `/`-separated path: `url.split("/")[-1]`. -/
def lastSegment (url : List Char) : List Char :=
  (url.reverse.takeWhile (fun c => c != '/')).reverse

/-- Embedding of `CommunityPost.from_json`.  `dirImages` stands for the image
files found in the post's directory; `now` is the reference time used by the
relative-date estimate. -/
def fromJson (rec : PostRecord) (dirImages : List (List Char)) (now : Int) : CommunityPost :=
  { post_id := if rec.url.isEmpty then [] else lastSegment rec.url
    url := rec.url
    text := rec.text
    images := rec.images
    local_images := dirImages
    is_members := rec.is_members
    relative_date := rec.relative_date
    estimated_date := parse_relative_date rec.relative_date now
    when_archived := rec.when_archived
    has_poll := rec.has_poll }

/-- Embedding of `PostArchiver.load_archived_posts`.  The argument models the
output directory: `none` for an absent directory, otherwise the `post.json`
files found by `rglob` in traversal order, each either parsed (`some`, with
the record and its directory's image files) or failing to parse (`none`,
which the source skips with one warning).  The second component counts the
warnings issued. -/
def loadArchivedPosts (root : Option (List (Option (PostRecord × List (List Char)))))
    (now : Int) : List CommunityPost × Nat :=
  match root with
  | none => ([], 0)
  | some files =>
    files.foldl
      (fun acc f =>
        match f with
        | some (rec, imgs) => (acc.1 ++ [fromJson rec imgs now], acc.2)
        | none => (acc.1, acc.2 + 1))
      ([], 0)

/-! Membership-status reconciler (`_restore_member_status`).  The on-disk
records are modelled as an association list from post id to the parse result
of `<output_dir>/<post_id>/post.json`: a key that is absent models a missing
file (`post_json_path.exists()` false), a `none` value models a record that
exists but cannot be read or parsed (warned about, left unchanged). -/

/-- One in-place pass of the loop body on the in-memory post. -/
def fixMember (memberIds : List (List Char)) (p : CommunityPost) : CommunityPost :=
  if p.post_id ∈ memberIds ∧ p.is_members = false then { p with is_members := true } else p

/-- The record update `data["is_members"] = True` (all other fields kept). -/
def setTrue (rec : PostRecord) : PostRecord := { rec with is_members := true }

/-- Rewrite of the record for `pid` with `data["is_members"] = True`; records
that fail to parse and other ids are untouched. -/
def setRecordMember (records : List (List Char × Option PostRecord)) (pid : List Char) :
    List (List Char × Option PostRecord) :=
  records.map (fun kv => if kv.1 = pid then (kv.1, kv.2.map setTrue) else kv)

/-- Read of the record file for a post id: `none` models an absent file,
`some none` a file that exists but fails to parse. -/
def fileLookup : List (List Char × Option PostRecord) → List Char → Option (Option PostRecord)
  | [], _ => none
  | (k, v) :: rest, pid => if k = pid then some v else fileLookup rest pid

/-- Embedding of `PostArchiver._restore_member_status`: returns the updated
in-memory posts and the updated on-disk records. -/
def restoreMemberStatus (posts : List CommunityPost) (memberIds : List (List Char))
    (records : List (List Char × Option PostRecord)) :
    List CommunityPost × List (List Char × Option PostRecord) :=
  match posts with
  | [] => ([], records)
  | p :: rest =>
    if p.post_id ∈ memberIds ∧ p.is_members = false then
      let out := restoreMemberStatus rest memberIds (setRecordMember records p.post_id)
      ({ p with is_members := true } :: out.1, out.2)
    else
      let out := restoreMemberStatus rest memberIds records
      (p :: out.1, out.2)

/-! Order reconciler (`_update_post_order`) and display sorting
(`_sort_by_order` / `_sort_by_date`).  Rank tables are Python dicts built by
comprehension over the persisted entry list, so a repeated key keeps the
binding seen last; `dictLookup` has exactly that semantics. -/

/-- One `{post_id, order}` entry of the persisted order table. -/
structure OrderEntry where
  post_id : List Char
  order : Int
deriving DecidableEq

/-- First binding of `k` in an association list. -/
def assocFirst : List (List Char × Int) → List Char → Option Int
  | [], _ => none
  | (k', v) :: rest, k => if k' = k then some v else assocFirst rest k

/-- Lookup in a dict built by inserting the pairs left to right: the last
binding of a key wins, i.e. the first binding of the reversed list. -/
def dictLookup (m : List (List Char × Int)) (k : List Char) : Option Int :=
  assocFirst m.reverse k

/-- Lexicographic `≤` on the sort keys the source builds as Python tuples. -/
def keyLe (a b : Nat × Int) : Prop := a.1 < b.1 ∨ (a.1 = b.1 ∧ a.2 ≤ b.2)

instance : DecidableRel keyLe := fun a b =>
  inferInstanceAs (Decidable (a.1 < b.1 ∨ (a.1 = b.1 ∧ a.2 ≤ b.2)))

/-- Comparison of list elements through a tuple-valued sort key, the shape of
every `sort(key=...)` call in the verified code. -/
def byKey (k : α → Nat × Int) (a b : α) : Prop := keyLe (k a) (k b)

instance (k : α → Nat × Int) : DecidableRel (byKey k) := fun a b =>
  inferInstanceAs (Decidable (keyLe (k a) (k b)))

instance (k : α → Nat × Int) : IsTotal α (byKey k) :=
  ⟨fun a b => by unfold byKey keyLe; omega⟩

instance (k : α → Nat × Int) : IsTrans α (byKey k) :=
  ⟨fun a b c => by unfold byKey keyLe; omega⟩

instance (k : α → Nat × Int) : IsRefl α (byKey k) :=
  ⟨fun a => by unfold byKey keyLe; omega⟩

/-- Python's stable ascending `list.sort` with key `k`. -/
def stableSortByKey (k : α → Nat × Int) (l : List α) : List α :=
  List.insertionSort (byKey k) l

/-- The dict `{post_id: idx for idx, post_id in enumerate(pre_fetched_order)}`
built when a fresh order is available (rank = position, 0 = newest). -/
def freshRanks (preFetched : List (List Char)) : List (List Char × Int) :=
  (preFetched.enum).map (fun iv => (iv.2, (iv.1 : Int)))

/-- The `posts_with_time` list: posts whose `when_archived` parses, paired
with the parsed timestamp. -/
def archivedPairs (posts : List CommunityPost) : List (CommunityPost × Int) :=
  posts.filterMap (fun p => p.when_archived.map (fun t => (p, t)))

/-- The `posts_with_time.sort(key=lambda x: x[1])` step: stable ascending
sort by archive timestamp (earlier archived means newer post). -/
def sortedArchived (posts : List CommunityPost) : List (CommunityPost × Int) :=
  stableSortByKey (fun pt => (0, pt.2)) (archivedPairs posts)

/-- The fallback new-order dict: posts with a parseable `when_archived` are
sorted by that timestamp ascending (stable) and ranked by position. -/
def fallbackRanks (posts : List CommunityPost) : List (List Char × Int) :=
  ((sortedArchived posts).enum).map (fun ie => (ie.2.1.post_id, (ie.1 : Int)))

/-- The body of the merge loop for one post: its fresh rank when the fresh
dict names it, else its previously persisted rank, else no entry. -/
def mergeEntry (newOrder existing : List (List Char × Int)) (p : CommunityPost) :
    Option OrderEntry :=
  match dictLookup newOrder p.post_id with
  | some r => some ⟨p.post_id, r⟩
  | none =>
    match dictLookup existing p.post_id with
    | some r => some ⟨p.post_id, r⟩
    | none => none

/-- The merge loop over all current posts, building `final_order` before the
densification step. -/
def provisionalTable (posts : List CommunityPost) (newOrder existing : List (List Char × Int)) :
    List OrderEntry :=
  posts.filterMap (mergeEntry newOrder existing)

/-- The re-densification loop `for idx, item in enumerate(final_order)`. -/
def reassignOrders (i : Nat) : List OrderEntry → List OrderEntry
  | [] => []
  | e :: rest => { e with order := (i : Int) } :: reassignOrders (i + 1) rest

/-- Sort the merged table by provisional rank (stable) and close the gaps. -/
def densifyTable (l : List OrderEntry) : List OrderEntry :=
  reassignOrders 0 (stableSortByKey (fun e => (0, e.order)) l)

/-- Embedding of `PostArchiver._update_post_order`: `posts` is the current
post set, `preFetched` the freshly observed order (`[]` when absent, matching
Python truthiness), `existing` the entry list of the persisted table (empty
when the file is missing or malformed, which the source swallows).  Returns
the `posts` list written back to `post_order.json`. -/
def updatePostOrder (posts : List CommunityPost) (preFetched : List (List Char))
    (existing : List (List Char × Int)) : List OrderEntry :=
  let newOrder := if preFetched.isEmpty then fallbackRanks posts else freshRanks preFetched
  densifyTable (provisionalTable posts newOrder existing)

/-! Post classifier / query engine (data_processor.py).  All call sites in
scope use the default `newest_first=True`, i.e. `reverse=False`: a plain
stable ascending sort on the respective key. -/

/-- The sort key of `_sort_by_date`: `(0, archived_dt)`, `(1, estimated_date)`
or `(2, datetime.min)`; the third group's constant is irrelevant to
comparison inside the group. -/
def dateKey (p : CommunityPost) : Nat × Int :=
  match p.when_archived with
  | some t => (0, t)
  | none =>
    match p.estimated_date with
    | some e => (1, e)
    | none => (2, 0)

/-- Embedding of `DataProcessor._sort_by_date` with `newest_first=True`. -/
def sortByDate (posts : List CommunityPost) : List CommunityPost :=
  stableSortByKey dateKey posts

/-- The sort key of `_sort_by_order`: `(0, table rank)` for posts in the
order table, `(1, 0)` for the rest. -/
def orderKey (table : List (List Char × Int)) (p : CommunityPost) : Nat × Int :=
  match dictLookup table p.post_id with
  | some r => (0, r)
  | none => (1, 0)

/-- Embedding of `DataProcessor._sort_by_order` with `newest_first=True`;
`table` is the entry list loaded from `post_order.json` (empty when the file
is missing or malformed, in which case the source falls back to
`_sort_by_date`). -/
def sortByOrder (posts : List CommunityPost) (table : List (List Char × Int)) :
    List CommunityPost :=
  match table with
  | [] => sortByDate posts
  | _ => stableSortByKey (orderKey table) posts

/-- Embedding of `DataProcessor.filter_by_date_range`. -/
def filterByDateRange (posts : List CommunityPost)
    (startDate endDate : Option Int) : List CommunityPost :=
  posts.filter (fun p =>
    match p.estimated_date with
    | none => true
    | some d =>
      !(match startDate with | some s => decide (d < s) | none => false) &&
      !(match endDate with | some e => decide (e < d) | none => false))

/-- The dictionary returned by `DataProcessor.get_statistics`; the two date
fields model the `isoformat()` strings by the dates themselves. -/
structure Stats where
  total_posts : Nat
  members_only : Nat
  public : Nat
  with_images : Nat
  with_polls : Nat
  oldest_post : Option Int
  newest_post : Option Int
deriving DecidableEq

/-- Embedding of `DataProcessor.get_statistics`. -/
def getStatistics (posts : List CommunityPost) : Stats :=
  let total := posts.length
  let membersOnly := posts.countP (fun p => p.is_members)
  let withImages := posts.countP (fun p => !p.images.isEmpty || !p.local_images.isEmpty)
  let withPolls := posts.countP (fun p => p.has_poll)
  let dates := posts.filterMap (fun p => p.estimated_date)
  { total_posts := total
    members_only := membersOnly
    public := total - membersOnly
    with_images := withImages
    with_polls := withPolls
    oldest_post := dates.min?
    newest_post := dates.max? }

/-- The on-disk state after the reconciler has processed a list of posts:
one fold step per post, updating the record of each post it corrects. -/
def recordsAfter (memberIds : List (List Char))
    (records : List (List Char × Option PostRecord)) (posts : List CommunityPost) :
    List (List Char × Option PostRecord) :=
  posts.foldl
    (fun acc p =>
      if p.post_id ∈ memberIds ∧ p.is_members = false then setRecordMember acc p.post_id
      else acc)
    records

/-- A sample post with every claim-relevant field defaulted; concrete test
inputs below override the fields they exercise. -/
def basePost : CommunityPost :=
  { post_id := [], url := [], text := [], images := [], local_images := []
    is_members := false, relative_date := [], estimated_date := none
    when_archived := none, has_poll := false }

/-- A sample record with every field defaulted. -/
def baseRecord : PostRecord :=
  { url := [], text := [], images := [], is_members := false, relative_date := []
    when_archived := none, has_poll := false }

example : parse_relative_date "3 months ago".data 10000000 = some (10000000 - 3 * 2592000) := by
  decide

example : parse_relative_date "just now".data 5 = some 5 := by decide

example : parse_relative_date "yesterday".data 100000 = some (100000 - 86400) := by decide

example : parse_relative_date "hello".data 0 = none := by decide

example : parse_relative_date "12 seconds ago".data 50 = some 38 := by decide

example : parse_relative_date "".data 50 = none := by decide

example : parse_relative_date "  2 Weeks ago ".data 0 = some (-1209600) := by decide

example :
    updatePostOrder
      [{ basePost with post_id := "A".data }, { basePost with post_id := "B".data },
       { basePost with post_id := "C".data }]
      ["B".data, "A".data]
      [("A".data, 0), ("C".data, 5)] =
    [⟨"B".data, 0⟩, ⟨"A".data, 1⟩, ⟨"C".data, 2⟩] := by decide

/-! Lemmas about the regex model, supporting the relative-date claims. -/

lemma head_fails_of_takeWhile_nil {p : Char → Bool} {L : List Char}
    (h : L.takeWhile p = []) : ∀ c, L.head? = some c → p c = false := by
  cases L with
  | nil => intro c hc; simp at hc
  | cons a t =>
    intro c hc
    have hca : c = a := by
      simp only [List.head?_cons, Option.some.injEq] at hc
      exact hc.symm
    subst hca
    by_cases hp : p c = true
    · simp [List.takeWhile_cons, hp] at h
    · simpa using hp

lemma takeWhile_digits_append {ds L : List Char} (hds : ∀ c ∈ ds, isDigitChar c = true)
    (hL : L.takeWhile isDigitChar = []) : (ds ++ L).takeWhile isDigitChar = ds := by
  induction ds with
  | nil => simpa using hL
  | cons d t ih =>
    have hd : isDigitChar d = true := hds d (by simp)
    simp only [List.cons_append, List.takeWhile_cons, hd, if_true]
    rw [ih (fun c hc => hds c (by simp [hc]))]

lemma dropWhile_digits_append {ds L : List Char} (hds : ∀ c ∈ ds, isDigitChar c = true)
    (hL : L.takeWhile isDigitChar = []) : (ds ++ L).dropWhile isDigitChar = L := by
  induction ds with
  | nil =>
    cases L with
    | nil => rfl
    | cons a t =>
      simp [List.dropWhile_cons, head_fails_of_takeWhile_nil hL a rfl]
  | cons d t ih =>
    have hd : isDigitChar d = true := hds d (by simp)
    simp only [List.cons_append, List.dropWhile_cons, hd, if_true]
    exact ih (fun c hc => hds c (by simp [hc]))

lemma searchNum_append_found {pat ds L : List Char} (hne : ds ≠ [])
    (hds : ∀ c ∈ ds, isDigitChar c = true) (hL : L.takeWhile isDigitChar = [])
    (hp : pat.isPrefixOf (L.dropWhile isSpaceChar) = true) :
    searchNum pat (ds ++ L) = some (digitsVal ds) := by
  have hm : matchNumAt pat (ds ++ L) = some (digitsVal ds) := by
    unfold matchNumAt
    rw [takeWhile_digits_append hds hL, dropWhile_digits_append hds hL]
    cases ds with
    | nil => exact absurd rfl hne
    | cons d t => simp [hp]
  cases ds with
  | nil => exact absurd rfl hne
  | cons d t =>
    simp only [List.cons_append] at hm ⊢
    simp [searchNum, hm]

lemma searchNum_append_skip {pat ds L : List Char}
    (hds : ∀ c ∈ ds, isDigitChar c = true) (hL : L.takeWhile isDigitChar = [])
    (hp : pat.isPrefixOf (L.dropWhile isSpaceChar) = false) :
    searchNum pat (ds ++ L) = searchNum pat L := by
  induction ds with
  | nil => rfl
  | cons d t ih =>
    have hm : matchNumAt pat ((d :: t) ++ L) = none := by
      unfold matchNumAt
      rw [takeWhile_digits_append hds hL, dropWhile_digits_append hds hL]
      simp [hp]
    simp only [List.cons_append] at hm ⊢
    simp only [searchNum, hm]
    exact ih (fun c hc => hds c (by simp [hc]))

lemma toLowerChar_digit {c : Char} (h : isDigitChar c = true) : toLowerChar c = c := by
  unfold toLowerChar
  unfold isDigitChar at h
  simp only [Bool.and_eq_true, decide_eq_true_eq] at h
  have hn : ¬ (65 ≤ c.toNat ∧ c.toNat ≤ 90) := by omega
  simp only [Bool.and_eq_true, decide_eq_true_eq]
  rw [if_neg hn]

lemma not_space_of_digit {c : Char} (h : isDigitChar c = true) : isSpaceChar c = false := by
  unfold isDigitChar at h
  unfold isSpaceChar
  simp only [Bool.and_eq_true, decide_eq_true_eq] at h
  simp only [Bool.or_eq_false_iff, Bool.and_eq_false_iff, beq_eq_false_iff_ne, ne_eq,
    decide_eq_false_iff_not]
  omega

lemma map_toLower_digits {ds : List Char} (hds : ∀ c ∈ ds, isDigitChar c = true) :
    ds.map toLowerChar = ds := by
  induction ds with
  | nil => rfl
  | cons d t ih =>
    simp only [List.map_cons, toLowerChar_digit (hds d (by simp))]
    rw [ih (fun c hc => hds c (by simp [hc]))]

lemma not_pred_head_of_dropWhile_self {p : Char → Bool} {a : Char} {t : List Char}
    (h : (a :: t).dropWhile p = a :: t) : p a = false := by
  by_cases hp : p a = true
  · have hlen : ((a :: t).dropWhile p).length ≤ t.length := by
      rw [List.dropWhile_cons, if_pos hp]
      exact (List.dropWhile_sublist p).length_le
    rw [h] at hlen
    simp at hlen
  · simpa using hp

lemma normalizePhrase_digits_append {ds L : List Char} (hne : ds ≠ [])
    (hds : ∀ c ∈ ds, isDigitChar c = true) (hmap : L.map toLowerChar = L)
    (hLne : L ≠ []) (hLr : L.reverse.dropWhile isSpaceChar = L.reverse) :
    normalizePhrase (ds ++ L) = ds ++ L := by
  unfold normalizePhrase stripChars
  rw [List.map_append, hmap, map_toLower_digits hds]
  have e1 : (ds ++ L).dropWhile isSpaceChar = ds ++ L := by
    cases ds with
    | nil => exact absurd rfl hne
    | cons d t =>
      simp [List.dropWhile_cons, not_space_of_digit (hds d (by simp))]
  rw [e1]
  have e2 : (ds ++ L).reverse.dropWhile isSpaceChar = (ds ++ L).reverse := by
    rw [List.reverse_append]
    cases hr : L.reverse with
    | nil => exact absurd (by simpa using hr) hLne
    | cons a t =>
      rw [hr] at hLr
      simp [List.dropWhile_cons, not_pred_head_of_dropWhile_self hLr]
  rw [e2, List.reverse_reverse]

lemma findUnitValue_cons_none {u : List Char} {m : Int} {rest : List (List Char × Int)}
    {s : List Char} (h : searchNum u s = none) :
    findUnitValue ((u, m) :: rest) s = findUnitValue rest s := by
  simp [findUnitValue, h]

lemma findUnitValue_cons_some {u : List Char} {m : Int} {rest : List (List Char × Int)}
    {s : List Char} {v : Nat} (h : searchNum u s = some v) :
    findUnitValue ((u, m) :: rest) s = some (m * (v : Int)) := by
  simp [findUnitValue, h]

lemma parse_of_findUnit {s : List Char} {now off : Int} (hne : s.isEmpty = false)
    (h : findUnitValue unitPatterns (normalizePhrase s) = some off) :
    parse_relative_date s now = some (now - off) := by
  unfold parse_relative_date
  simp [hne, h]

lemma isEmpty_false_of_ne {l : List Char} (h : l ≠ []) : l.isEmpty = false := by
  cases l with
  | nil => exact absurd rfl h
  | cons a t => rfl

lemma append_isEmpty_false {ds L : List Char} (hne : ds ≠ []) :
    (ds ++ L).isEmpty = false := by
  cases ds with
  | nil => exact absurd rfl hne
  | cons d t => rfl

/-- Every branch of the estimator returns `now` minus an offset that depends
only on the phrase, so moving the reference time moves the estimate by
exactly the same amount. -/
lemma parse_shift {p : List Char} {n₁ n₂ d : Int}
    (h : parse_relative_date p n₁ = some d) :
    parse_relative_date p n₂ = some (d + (n₂ - n₁)) := by
  unfold parse_relative_date at h ⊢
  by_cases he : p.isEmpty = true
  · rw [if_pos he] at h
    exact absurd h (by simp)
  · rw [if_neg he] at h ⊢
    cases hf : findUnitValue unitPatterns (normalizePhrase p) with
    | some off =>
      rw [hf] at h
      have h' : some (n₁ - off) = some d := h
      show some (n₂ - off) = some (d + (n₂ - n₁))
      simp only [Option.some.injEq] at h' ⊢
      omega
    | none =>
      rw [hf] at h
      have h' :
          (if (containsSub "just now".data (normalizePhrase p) ||
              containsSub "moments ago".data (normalizePhrase p)) = true then some n₁
            else if containsSub "yesterday".data (normalizePhrase p) = true then
              some (n₁ - 86400)
            else none) = some d := h
      show (if (containsSub "just now".data (normalizePhrase p) ||
              containsSub "moments ago".data (normalizePhrase p)) = true then some n₂
            else if containsSub "yesterday".data (normalizePhrase p) = true then
              some (n₂ - 86400)
            else none) = some (d + (n₂ - n₁))
      by_cases hj : (containsSub "just now".data (normalizePhrase p) ||
          containsSub "moments ago".data (normalizePhrase p)) = true
      · rw [if_pos hj] at h' ⊢
        simp only [Option.some.injEq] at h' ⊢
        omega
      · rw [if_neg hj] at h' ⊢
        by_cases hy : containsSub "yesterday".data (normalizePhrase p) = true
        · rw [if_pos hy] at h' ⊢
          simp only [Option.some.injEq] at h' ⊢
          omega
        · rw [if_neg hy] at h'
          exact absurd h' (by simp)

lemma parse_just {s : List Char} {now : Int} (h1 : s.isEmpty = false)
    (hf : findUnitValue unitPatterns (normalizePhrase s) = none)
    (hj : (containsSub "just now".data (normalizePhrase s) ||
        containsSub "moments ago".data (normalizePhrase s)) = true) :
    parse_relative_date s now = some now := by
  unfold parse_relative_date
  simp [h1, hf, hj]

lemma parse_yesterday {s : List Char} {now : Int} (h1 : s.isEmpty = false)
    (hf : findUnitValue unitPatterns (normalizePhrase s) = none)
    (hj : (containsSub "just now".data (normalizePhrase s) ||
        containsSub "moments ago".data (normalizePhrase s)) = false)
    (hy : containsSub "yesterday".data (normalizePhrase s) = true) :
    parse_relative_date s now = some (now - 86400) := by
  unfold parse_relative_date
  simp [h1, hf, hj, hy]

/-- C5.  Relative-Date Estimator: for every phrase with a numeric prefix and
a supported unit (seconds, minutes, hours, days, weeks, months, years), the
estimate is `now` minus the corresponding duration, with months approximated
as 30 days and years as 365 days; `just now` and `moments ago` yield `now`,
`yesterday` yields `now` minus 1 day, and a phrase matching no pattern and no
special case yields `none`, never an error. -/
theorem claim_C5_relative_dates :
    (∀ (now : Int) (ds u : List Char) (m : Int), (u, m) ∈ unitPatterns → ds ≠ [] →
      (∀ c ∈ ds, isDigitChar c = true) →
      parse_relative_date (ds ++ pluralAgo u) now = some (now - m * (digitsVal ds : Int)))
  ∧ (∀ now : Int, parse_relative_date "just now".data now = some now)
  ∧ (∀ now : Int, parse_relative_date "moments ago".data now = some now)
  ∧ (∀ now : Int, parse_relative_date "yesterday".data now = some (now - 86400))
  ∧ (∀ (s : List Char) (now : Int),
      findUnitValue unitPatterns (normalizePhrase s) = none →
      containsSub "just now".data (normalizePhrase s) = false →
      containsSub "moments ago".data (normalizePhrase s) = false →
      containsSub "yesterday".data (normalizePhrase s) = false →
      parse_relative_date s now = none) := by
  refine ⟨?_, fun now => parse_just (by decide) (by decide) (by decide),
    fun now => parse_just (by decide) (by decide) (by decide),
    fun now => parse_yesterday (by decide) (by decide) (by decide) (by decide), ?_⟩
  · intro now ds u m hmem hne hds
    simp only [unitPatterns, List.mem_cons, List.not_mem_nil, or_false, Prod.mk.injEq] at hmem
    rcases hmem with ⟨rfl, rfl⟩ | ⟨rfl, rfl⟩ | ⟨rfl, rfl⟩ | ⟨rfl, rfl⟩ | ⟨rfl, rfl⟩ |
      ⟨rfl, rfl⟩ | ⟨rfl, rfl⟩
    · exact parse_of_findUnit (append_isEmpty_false hne)
        (by rw [normalizePhrase_digits_append hne hds (by decide) (by decide) (by decide)]
            unfold unitPatterns
            rw [findUnitValue_cons_some (searchNum_append_found hne hds (by decide) (by decide))])
    · exact parse_of_findUnit (append_isEmpty_false hne)
        (by rw [normalizePhrase_digits_append hne hds (by decide) (by decide) (by decide)]
            unfold unitPatterns
            rw [findUnitValue_cons_none
                  ((searchNum_append_skip hds (by decide) (by decide)).trans (by decide)),
              findUnitValue_cons_some (searchNum_append_found hne hds (by decide) (by decide))])
    · exact parse_of_findUnit (append_isEmpty_false hne)
        (by rw [normalizePhrase_digits_append hne hds (by decide) (by decide) (by decide)]
            unfold unitPatterns
            rw [findUnitValue_cons_none
                  ((searchNum_append_skip hds (by decide) (by decide)).trans (by decide)),
              findUnitValue_cons_none
                  ((searchNum_append_skip hds (by decide) (by decide)).trans (by decide)),
              findUnitValue_cons_some (searchNum_append_found hne hds (by decide) (by decide))])
    · exact parse_of_findUnit (append_isEmpty_false hne)
        (by rw [normalizePhrase_digits_append hne hds (by decide) (by decide) (by decide)]
            unfold unitPatterns
            rw [findUnitValue_cons_none
                  ((searchNum_append_skip hds (by decide) (by decide)).trans (by decide)),
              findUnitValue_cons_none
                  ((searchNum_append_skip hds (by decide) (by decide)).trans (by decide)),
              findUnitValue_cons_none
                  ((searchNum_append_skip hds (by decide) (by decide)).trans (by decide)),
              findUnitValue_cons_some (searchNum_append_found hne hds (by decide) (by decide))])
    · exact parse_of_findUnit (append_isEmpty_false hne)
        (by rw [normalizePhrase_digits_append hne hds (by decide) (by decide) (by decide)]
            unfold unitPatterns
            rw [findUnitValue_cons_none
                  ((searchNum_append_skip hds (by decide) (by decide)).trans (by decide)),
              findUnitValue_cons_none
                  ((searchNum_append_skip hds (by decide) (by decide)).trans (by decide)),
              findUnitValue_cons_none
                  ((searchNum_append_skip hds (by decide) (by decide)).trans (by decide)),
              findUnitValue_cons_none
                  ((searchNum_append_skip hds (by decide) (by decide)).trans (by decide)),
              findUnitValue_cons_some (searchNum_append_found hne hds (by decide) (by decide))])
    · exact parse_of_findUnit (append_isEmpty_false hne)
        (by rw [normalizePhrase_digits_append hne hds (by decide) (by decide) (by decide)]
            unfold unitPatterns
            rw [findUnitValue_cons_none
                  ((searchNum_append_skip hds (by decide) (by decide)).trans (by decide)),
              findUnitValue_cons_none
                  ((searchNum_append_skip hds (by decide) (by decide)).trans (by decide)),
              findUnitValue_cons_none
                  ((searchNum_append_skip hds (by decide) (by decide)).trans (by decide)),
              findUnitValue_cons_none
                  ((searchNum_append_skip hds (by decide) (by decide)).trans (by decide)),
              findUnitValue_cons_none
                  ((searchNum_append_skip hds (by decide) (by decide)).trans (by decide)),
              findUnitValue_cons_some (searchNum_append_found hne hds (by decide) (by decide))])
    · exact parse_of_findUnit (append_isEmpty_false hne)
        (by rw [normalizePhrase_digits_append hne hds (by decide) (by decide) (by decide)]
            unfold unitPatterns
            rw [findUnitValue_cons_none
                  ((searchNum_append_skip hds (by decide) (by decide)).trans (by decide)),
              findUnitValue_cons_none
                  ((searchNum_append_skip hds (by decide) (by decide)).trans (by decide)),
              findUnitValue_cons_none
                  ((searchNum_append_skip hds (by decide) (by decide)).trans (by decide)),
              findUnitValue_cons_none
                  ((searchNum_append_skip hds (by decide) (by decide)).trans (by decide)),
              findUnitValue_cons_none
                  ((searchNum_append_skip hds (by decide) (by decide)).trans (by decide)),
              findUnitValue_cons_none
                  ((searchNum_append_skip hds (by decide) (by decide)).trans (by decide)),
              findUnitValue_cons_some (searchNum_append_found hne hds (by decide) (by decide))])
  · intro s now hf hj hm hy
    unfold parse_relative_date
    by_cases he : s.isEmpty = true
    · rw [if_pos he]
    · rw [if_neg he, hf, hj, hm, hy]
      rfl

/-- Witness for C5 at the concrete phrase `3 seconds ago` and reference
time 1000. -/
theorem claim_C5_relative_dates_witness :
    parse_relative_date ("3".data ++ pluralAgo "second".data) 1000
      = some (1000 - 1 * (digitsVal "3".data : Int)) :=
  claim_C5_relative_dates.1 1000 "3".data "second".data 1 (by decide) (by decide) (by decide)

/-- C9.  Relative-Date Estimator purity: the estimate is a pure function of
`(phrase, now)`, and a phrase matching a supported unit evaluated at two
reference times yields estimates shifted by exactly the difference of the
reference times (the second conjunct proves the shift for every phrase with
a defined estimate, which includes every unit-matching phrase; the third
states it for unit-matching phrases as the claim does). -/
theorem claim_C9_estimator_pure :
    (∀ (p : List Char) (now : Int), parse_relative_date p now = parse_relative_date p now)
  ∧ (∀ (p : List Char) (n₁ n₂ d₁ : Int), parse_relative_date p n₁ = some d₁ →
      parse_relative_date p n₂ = some (d₁ + (n₂ - n₁)))
  ∧ (∀ (p : List Char) (n₁ n₂ off : Int), p ≠ [] →
      findUnitValue unitPatterns (normalizePhrase p) = some off →
      parse_relative_date p n₁ = some (n₁ - off) ∧
        parse_relative_date p n₂ = some (n₂ - off)) :=
  ⟨fun _ _ => rfl,
   fun _ _ _ _ h => parse_shift h,
   fun _ _ _ _ hne hf =>
     ⟨parse_of_findUnit (isEmpty_false_of_ne hne) hf,
      parse_of_findUnit (isEmpty_false_of_ne hne) hf⟩⟩

/-- Witness for C9: the phrase `3 seconds ago` evaluated at reference time
100 yields 97, so at reference time 200 it yields 197. -/
theorem claim_C9_estimator_pure_witness :
    parse_relative_date "3 seconds ago".data 200 = some (97 + (200 - 100)) :=
  claim_C9_estimator_pure.2.1 "3 seconds ago".data 100 200 97 (by decide)

/-! Lemmas about the rank dictionaries and the reconciliation passes. -/

lemma assocFirst_eq_none_iff {m : List (List Char × Int)} {k : List Char} :
    assocFirst m k = none ↔ k ∉ m.map Prod.fst := by
  induction m with
  | nil => simp [assocFirst]
  | cons kv rest ih =>
    obtain ⟨k', v⟩ := kv
    simp only [assocFirst, List.map_cons, List.mem_cons]
    by_cases hk : k' = k
    · subst hk
      simp
    · rw [if_neg hk, ih]
      constructor
      · intro h hor
        rcases hor with h1 | h2
        · exact hk h1.symm
        · exact h h2
      · intro h h2
        exact h (Or.inr h2)

lemma dictLookup_eq_none_iff {m : List (List Char × Int)} {k : List Char} :
    dictLookup m k = none ↔ k ∉ m.map Prod.fst := by
  unfold dictLookup
  rw [assocFirst_eq_none_iff]
  constructor
  · intro h hk
    exact h (by simpa using hk)
  · intro h hk
    exact h (by simpa using hk)

lemma assocFirst_of_mem_nodup {m : List (List Char × Int)} {k : List Char} {v : Int}
    (hnd : (m.map Prod.fst).Nodup) (hm : (k, v) ∈ m) : assocFirst m k = some v := by
  induction m with
  | nil => cases hm
  | cons kv rest ih =>
    obtain ⟨k', v'⟩ := kv
    simp only [List.map_cons, List.nodup_cons] at hnd
    rcases List.mem_cons.mp hm with heq | hm'
    · have hk : k' = k := (Prod.mk.inj heq).1.symm
      have hv : v' = v := (Prod.mk.inj heq).2.symm
      subst hk; subst hv
      simp [assocFirst]
    · have hk : k' ≠ k := by
        intro hkk
        subst hkk
        exact hnd.1 (List.mem_map.mpr ⟨(k', v), hm', rfl⟩)
      simp only [assocFirst, if_neg hk]
      exact ih hnd.2 hm'

lemma dictLookup_of_mem_nodup {m : List (List Char × Int)} {k : List Char} {v : Int}
    (hnd : (m.map Prod.fst).Nodup) (hm : (k, v) ∈ m) : dictLookup m k = some v := by
  unfold dictLookup
  have h1 : (m.reverse.map Prod.fst).Nodup := by
    rw [List.map_reverse]
    exact List.nodup_reverse.mpr hnd
  exact assocFirst_of_mem_nodup h1 (List.mem_reverse.mpr hm)

lemma freshRanks_keys (fresh : List (List Char)) :
    (freshRanks fresh).map Prod.fst = fresh := by
  unfold freshRanks
  rw [List.map_map]
  exact List.enum_map_snd fresh

lemma freshRanks_mem (fresh : List (List Char)) (i : Fin fresh.length) :
    (fresh.get i, (i : Int)) ∈ freshRanks fresh := by
  unfold freshRanks
  apply List.mem_map.mpr
  refine ⟨((i : Nat), fresh.get i), ?_, rfl⟩
  have hlen : (i : Nat) < fresh.enum.length := by
    simp
  have : fresh.enum.get ⟨i, hlen⟩ = ((i : Nat), fresh.get i) := by
    rw [List.get_eq_getElem, List.getElem_enum, List.get_eq_getElem]
  rw [← this]
  exact List.get_mem _ _ _

lemma dictLookup_freshRanks {fresh : List (List Char)} (hnd : fresh.Nodup)
    (i : Fin fresh.length) :
    dictLookup (freshRanks fresh) (fresh.get i) = some (i : Int) :=
  dictLookup_of_mem_nodup (by rw [freshRanks_keys]; exact hnd) (freshRanks_mem fresh i)

lemma mergeEntry_id {newOrder existing : List (List Char × Int)} {p : CommunityPost}
    {e : OrderEntry} (h : mergeEntry newOrder existing p = some e) :
    e.post_id = p.post_id := by
  unfold mergeEntry at h
  cases h1 : dictLookup newOrder p.post_id with
  | some r => rw [h1] at h; cases h; rfl
  | none =>
    rw [h1] at h
    cases h2 : dictLookup existing p.post_id with
    | some r => rw [h2] at h; cases h; rfl
    | none => rw [h2] at h; cases h

lemma filterMap_map_sublist {α β γ : Type _} (f : α → Option β) (g : β → γ) (h : α → γ)
    (hfg : ∀ a b, f a = some b → g b = h a) :
    ∀ l : List α, (l.filterMap f).map g <+ l.map h
  | [] => by simp
  | a :: t => by
    rw [List.filterMap_cons]
    cases hf : f a with
    | none =>
      simp only [List.map_cons]
      exact (filterMap_map_sublist f g h hfg t).cons (h a)
    | some b =>
      simp only [List.map_cons]
      rw [hfg a b hf]
      exact (filterMap_map_sublist f g h hfg t).cons₂ (h a)

lemma provisionalTable_ids_sublist (posts : List CommunityPost)
    (newOrder existing : List (List Char × Int)) :
    (provisionalTable posts newOrder existing).map (fun e => e.post_id) <+
      posts.map (fun p => p.post_id) :=
  filterMap_map_sublist _ _ _ (fun _ _ hpe => mergeEntry_id hpe) posts

lemma reassignOrders_length : ∀ (i : Nat) (l : List OrderEntry),
    (reassignOrders i l).length = l.length
  | _, [] => rfl
  | i, _ :: rest => by
    simp [reassignOrders, reassignOrders_length (i + 1) rest]

lemma reassignOrders_ids : ∀ (i : Nat) (l : List OrderEntry),
    (reassignOrders i l).map (fun e => e.post_id) = l.map (fun e => e.post_id)
  | _, [] => rfl
  | i, e :: rest => by
    simp [reassignOrders, reassignOrders_ids (i + 1) rest]

lemma reassignOrders_orders : ∀ (i : Nat) (l : List OrderEntry),
    (reassignOrders i l).map (fun e => e.order) =
      (List.range l.length).map (fun k => ((i + k : Nat) : Int))
  | i, [] => by simp [reassignOrders]
  | i, e :: rest => by
    show ((i : Nat) : Int) :: (reassignOrders (i + 1) rest).map (fun e => e.order) = _
    rw [reassignOrders_orders (i + 1) rest, List.length_cons, List.range_succ_eq_map,
      List.map_cons, List.map_map]
    refine congrArg₂ List.cons ?_ ?_
    · simp
    · refine List.map_congr_left ?_
      intro a _
      simp only [Function.comp_apply]
      congr 1
      omega

lemma densifyTable_ids_perm (l : List OrderEntry) :
    (densifyTable l).map (fun e => e.post_id) ~ l.map (fun e => e.post_id) := by
  unfold densifyTable stableSortByKey
  rw [reassignOrders_ids]
  exact (List.perm_insertionSort _ l).map _

lemma densifyTable_length (l : List OrderEntry) : (densifyTable l).length = l.length := by
  unfold densifyTable stableSortByKey
  rw [reassignOrders_length]
  exact (List.perm_insertionSort _ l).length_eq

lemma densifyTable_orders (l : List OrderEntry) :
    (densifyTable l).map (fun e => e.order) =
      (List.range l.length).map (fun (k : Nat) => (k : Int)) := by
  unfold densifyTable stableSortByKey
  rw [reassignOrders_orders, (List.perm_insertionSort _ l).length_eq]
  simp

lemma updatePostOrder_eq (posts : List CommunityPost) (preFetched : List (List Char))
    (existing : List (List Char × Int)) :
    updatePostOrder posts preFetched existing =
      densifyTable (provisionalTable posts
        (if preFetched.isEmpty then fallbackRanks posts else freshRanks preFetched)
        existing) := rfl

/-- C2.  Order table invariant: for every current post set (with its unique
`post_id` keys), every fresh order and every previously persisted table
(including the empty table that a missing or malformed file degrades to),
the reconciled table's ids are pairwise distinct and its orders are exactly
the dense 0-based sequence `0..N-1` in table order.  Reconciliation is a
total function of these inputs, so no input makes it raise. -/
theorem claim_C2_order_invariant (posts : List CommunityPost) (fresh : List (List Char))
    (existing : List (List Char × Int)) (h : (posts.map (fun p => p.post_id)).Nodup) :
    ((updatePostOrder posts fresh existing).map (fun e => e.post_id)).Nodup ∧
      (updatePostOrder posts fresh existing).map (fun e => e.order) =
        (List.range (updatePostOrder posts fresh existing).length).map (fun (k : Nat) => (k : Int)) := by
  rw [updatePostOrder_eq]
  constructor
  · exact (densifyTable_ids_perm _).nodup_iff.mpr
      ((provisionalTable_ids_sublist posts _ existing).nodup h)
  · rw [densifyTable_orders, densifyTable_length]

/-- Witness for C2 at the three-post example with fresh order `[B, A]` and
previous table `{A: 0, C: 5}`. -/
theorem claim_C2_order_invariant_witness :
    ((updatePostOrder
        [{ basePost with post_id := "A".data }, { basePost with post_id := "B".data },
         { basePost with post_id := "C".data }]
        ["B".data, "A".data] [("A".data, 0), ("C".data, 5)]).map
          (fun e => e.post_id)).Nodup ∧
      (updatePostOrder
        [{ basePost with post_id := "A".data }, { basePost with post_id := "B".data },
         { basePost with post_id := "C".data }]
        ["B".data, "A".data] [("A".data, 0), ("C".data, 5)]).map (fun e => e.order) =
        (List.range (updatePostOrder
          [{ basePost with post_id := "A".data }, { basePost with post_id := "B".data },
           { basePost with post_id := "C".data }]
          ["B".data, "A".data] [("A".data, 0), ("C".data, 5)]).length).map (fun (k : Nat) => (k : Int)) :=
  claim_C2_order_invariant _ _ _ (by decide)

lemma isEmpty_false_of_ne_nil {α : Type _} {l : List α} (h : l ≠ []) :
    l.isEmpty = false := by
  cases l with
  | nil => exact absurd rfl h
  | cons a t => rfl

lemma updatePostOrder_of_fresh {posts : List CommunityPost} {fresh : List (List Char)}
    {existing : List (List Char × Int)} (hne : fresh ≠ []) :
    updatePostOrder posts fresh existing =
      densifyTable (provisionalTable posts (freshRanks fresh) existing) := by
  rw [updatePostOrder_eq, isEmpty_false_of_ne_nil hne]
  rfl

/-- C1.  Order Reconciler merge with a non-empty fresh order: every current
post named in the fresh order gets the provisional rank equal to its fresh
position (0 = newest); a current post not named but present in the previous
table keeps its previous rank provisionally; an id absent from both sources
has no entry in the reconciled table; and on the spec's example (fresh
`[B, A]`, previous `{A: 0, C: 5}`, posts `{A, B, C}`) the final table is the
dense permutation `B:0, A:1, C:2`. -/
theorem claim_C1_order_merge :
    (∀ (posts : List CommunityPost) (fresh : List (List Char))
        (existing : List (List Char × Int)), fresh.Nodup →
      ∀ i : Fin fresh.length, ∀ p ∈ posts, p.post_id = fresh.get i →
        OrderEntry.mk p.post_id ((i : Nat) : Int) ∈
          provisionalTable posts (freshRanks fresh) existing)
  ∧ (∀ (posts : List CommunityPost) (fresh : List (List Char))
        (existing : List (List Char × Int)) (r : Int), ∀ p ∈ posts,
      p.post_id ∉ fresh → dictLookup existing p.post_id = some r →
        OrderEntry.mk p.post_id r ∈ provisionalTable posts (freshRanks fresh) existing)
  ∧ (∀ (posts : List CommunityPost) (fresh : List (List Char))
        (existing : List (List Char × Int)) (pid : List Char), fresh ≠ [] →
      pid ∉ fresh → dictLookup existing pid = none →
        ∀ en ∈ updatePostOrder posts fresh existing, en.post_id ≠ pid)
  ∧ updatePostOrder
      [{ basePost with post_id := "A".data }, { basePost with post_id := "B".data },
       { basePost with post_id := "C".data }]
      ["B".data, "A".data] [("A".data, 0), ("C".data, 5)] =
      [⟨"B".data, 0⟩, ⟨"A".data, 1⟩, ⟨"C".data, 2⟩] := by
  refine ⟨?_, ?_, ?_, by decide⟩
  · intro posts fresh existing hnd i p hp hpid
    apply List.mem_filterMap.mpr
    refine ⟨p, hp, ?_⟩
    unfold mergeEntry
    have hl : dictLookup (freshRanks fresh) p.post_id = some ((i : Nat) : Int) := by
      rw [hpid]
      exact dictLookup_freshRanks hnd i
    rw [hl]
  · intro posts fresh existing r p hp hnot hex
    apply List.mem_filterMap.mpr
    refine ⟨p, hp, ?_⟩
    unfold mergeEntry
    have hl : dictLookup (freshRanks fresh) p.post_id = none := by
      apply dictLookup_eq_none_iff.mpr
      rw [freshRanks_keys]
      exact hnot
    rw [hl, hex]
  · intro posts fresh existing pid hne hnot hnone en hmem heq
    have h1 : pid ∈ (updatePostOrder posts fresh existing).map (fun e => e.post_id) :=
      List.mem_map.mpr ⟨en, hmem, heq⟩
    rw [updatePostOrder_of_fresh hne] at h1
    have h2 := (densifyTable_ids_perm _).mem_iff.mp h1
    obtain ⟨e', he', hid⟩ := List.mem_map.mp h2
    obtain ⟨p, hp, hme⟩ := List.mem_filterMap.mp he'
    have hpid : p.post_id = pid := by rw [← mergeEntry_id hme, hid]
    have hfr : dictLookup (freshRanks fresh) p.post_id = none := by
      rw [hpid]
      apply dictLookup_eq_none_iff.mpr
      rw [freshRanks_keys]
      exact hnot
    have hex : dictLookup existing p.post_id = none := by rw [hpid]; exact hnone
    unfold mergeEntry at hme
    rw [hfr, hex] at hme
    exact Option.noConfusion hme

/-- Witness for C1: the first conjunct instantiated on the spec's example,
placing `B` at provisional fresh rank 0. -/
theorem claim_C1_order_merge_witness :
    OrderEntry.mk "B".data ((0 : Nat) : Int) ∈
      provisionalTable
        [{ basePost with post_id := "A".data }, { basePost with post_id := "B".data },
         { basePost with post_id := "C".data }]
        (freshRanks ["B".data, "A".data]) [("A".data, 0), ("C".data, 5)] := by
  have h := claim_C1_order_merge.1
    [{ basePost with post_id := "A".data }, { basePost with post_id := "B".data },
     { basePost with post_id := "C".data }]
    ["B".data, "A".data] [("A".data, 0), ("C".data, 5)] (by decide)
    ⟨0, by decide⟩ { basePost with post_id := "B".data } (by decide) (by decide)
  exact h

/-! Index lemmas for the stable key sorts. -/

lemma stableSort_perm {α : Type _} (k : α → Nat × Int) (l : List α) :
    stableSortByKey k l ~ l :=
  List.perm_insertionSort _ l

lemma stableSort_sorted {α : Type _} (k : α → Nat × Int) (l : List α) :
    List.Sorted (byKey k) (stableSortByKey k l) :=
  List.sorted_insertionSort _ l

lemma sorted_fin_lt {α : Type _} {k : α → Nat × Int} {l : List α}
    (hs : List.Sorted (byKey k) l) {i j : Fin l.length}
    (hn : ¬ byKey k (l.get j) (l.get i)) : i < j := by
  rcases lt_trichotomy i j with h | h | h
  · exact h
  · subst h
    exact absurd (IsRefl.refl (r := byKey k) (l.get i)) hn
  · exact absurd (hs.rel_get_of_lt h) hn

lemma orderKey_some {table : List (List Char × Int)} {p : CommunityPost} {r : Int}
    (h : dictLookup table p.post_id = some r) : orderKey table p = (0, r) := by
  unfold orderKey
  rw [h]

lemma orderKey_none {table : List (List Char × Int)} {p : CommunityPost}
    (h : dictLookup table p.post_id = none) : orderKey table p = (1, 0) := by
  unfold orderKey
  rw [h]

/-- C10.  Display sort by recorded order with a non-empty table: the output
is a permutation of the input (no post dropped or duplicated), every post
whose id is in the table precedes every post whose id is absent, and the
table posts appear in ascending recorded order. -/
theorem claim_C10_sort_by_order (posts : List CommunityPost)
    (table : List (List Char × Int)) (hne : table ≠ []) :
    (sortByOrder posts table ~ posts)
  ∧ (∀ i j : Fin (sortByOrder posts table).length, ∀ r : Int,
      dictLookup table ((sortByOrder posts table).get i).post_id = some r →
      dictLookup table ((sortByOrder posts table).get j).post_id = none → i < j)
  ∧ (∀ i j : Fin (sortByOrder posts table).length, ∀ r r' : Int, i ≤ j →
      dictLookup table ((sortByOrder posts table).get i).post_id = some r →
      dictLookup table ((sortByOrder posts table).get j).post_id = some r' → r ≤ r') := by
  cases table with
  | nil => exact absurd rfl hne
  | cons t ts =>
    have hs : List.Sorted (byKey (orderKey (t :: ts))) (sortByOrder posts (t :: ts)) :=
      stableSort_sorted _ posts
    refine ⟨stableSort_perm _ posts, ?_, ?_⟩
    · intro i j r hi hj
      apply sorted_fin_lt hs
      intro hcon
      unfold byKey at hcon
      rw [orderKey_none hj, orderKey_some hi] at hcon
      unfold keyLe at hcon
      omega
    · intro i j r r' hij hi hj
      have hrel := hs.rel_get_of_le hij
      unfold byKey at hrel
      rw [orderKey_some hi, orderKey_some hj] at hrel
      unfold keyLe at hrel
      omega

/-- Witness for C10 on posts `[C, A, B]` with table `{A: 0, B: 1}`: the sort
is a permutation and the two table posts keep ascending recorded order. -/
theorem claim_C10_sort_by_order_witness :
    (sortByOrder
        [{ basePost with post_id := "C".data }, { basePost with post_id := "A".data },
         { basePost with post_id := "B".data }]
        [("A".data, 0), ("B".data, 1)] ~
      [{ basePost with post_id := "C".data }, { basePost with post_id := "A".data },
       { basePost with post_id := "B".data }]) ∧ (0 : Int) ≤ 1 :=
  ⟨(claim_C10_sort_by_order _ _ (by decide)).1,
   (claim_C10_sort_by_order
      [{ basePost with post_id := "C".data }, { basePost with post_id := "A".data },
       { basePost with post_id := "B".data }]
      [("A".data, 0), ("B".data, 1)] (by decide)).2.2
     ⟨0, by decide⟩ ⟨1, by decide⟩ 0 1 (by decide) (by decide) (by decide)⟩

/-! Lemmas for the archive-timestamp fallback ordering. -/

lemma dateKey_arch {p : CommunityPost} {t : Int} (h : p.when_archived = some t) :
    dateKey p = (0, t) := by
  unfold dateKey
  rw [h]

lemma dateKey_est {p : CommunityPost} {e : Int} (h1 : p.when_archived = none)
    (h2 : p.estimated_date = some e) : dateKey p = (1, e) := by
  unfold dateKey
  rw [h1, h2]

lemma dateKey_resid {p : CommunityPost} (h1 : p.when_archived = none)
    (h2 : p.estimated_date = none) : dateKey p = (2, 0) := by
  unfold dateKey
  rw [h1, h2]

lemma archivedPairs_mem {posts : List CommunityPost} {p : CommunityPost} {t : Int}
    (hp : p ∈ posts) (ht : p.when_archived = some t) : (p, t) ∈ archivedPairs posts := by
  apply List.mem_filterMap.mpr
  refine ⟨p, hp, ?_⟩
  rw [ht]
  rfl

lemma fallbackRanks_keys (posts : List CommunityPost) :
    (fallbackRanks posts).map Prod.fst =
      (sortedArchived posts).map (fun pt => pt.1.post_id) := by
  unfold fallbackRanks
  rw [List.map_map]
  have hco : (Prod.fst ∘ fun ie : Nat × (CommunityPost × Int) =>
      (ie.2.1.post_id, (ie.1 : Int))) =
      ((fun pt : CommunityPost × Int => pt.1.post_id) ∘ Prod.snd) := rfl
  rw [hco, ← List.map_map, List.enum_map_snd]

lemma fallbackRanks_keys_nodup {posts : List CommunityPost}
    (hnd : (posts.map (fun p => p.post_id)).Nodup) :
    ((fallbackRanks posts).map Prod.fst).Nodup := by
  rw [fallbackRanks_keys]
  have hperm : (sortedArchived posts).map (fun pt => pt.1.post_id) ~
      (archivedPairs posts).map (fun pt => pt.1.post_id) :=
    (stableSort_perm _ _).map _
  apply hperm.nodup_iff.mpr
  have hsub : (archivedPairs posts).map (fun pt => pt.1.post_id) <+
      posts.map (fun p => p.post_id) := by
    apply filterMap_map_sublist
    intro a b hab
    cases ha : a.when_archived with
    | none => rw [ha] at hab; cases hab
    | some t =>
      rw [ha] at hab
      cases hab
      rfl
  exact hsub.nodup hnd

lemma fallbackRanks_rank_mem (posts : List CommunityPost)
    (i : Fin (sortedArchived posts).length) :
    (((sortedArchived posts).get i).1.post_id, ((i : Nat) : Int)) ∈ fallbackRanks posts := by
  unfold fallbackRanks
  apply List.mem_map.mpr
  refine ⟨((i : Nat), (sortedArchived posts).get i), ?_, rfl⟩
  have hlen : (i : Nat) < (sortedArchived posts).enum.length := by simp
  have hget : (sortedArchived posts).enum.get ⟨i, hlen⟩ =
      ((i : Nat), (sortedArchived posts).get i) := by
    rw [List.get_eq_getElem, List.getElem_enum, List.get_eq_getElem]
  rw [← hget]
  exact List.get_mem _ _ _

/-- C3.  Order Reconciler fallback and date sorting: with `newest_first`
display sorting, a post with an earlier parsed archive timestamp appears
before one with a later timestamp; posts lacking a usable archive timestamp
appear after all posts having one, ordered among themselves by estimated
date as the secondary key; the group with neither date appears last; and in
the reconciler's fallback rank dictionary a post archived at `T0` receives a
strictly smaller (newer) rank than one archived at `T0 + 1`. -/
theorem claim_C3_fallback_order :
    (∀ (posts : List CommunityPost) (i j : Fin (sortByDate posts).length) (t t' : Int),
      ((sortByDate posts).get i).when_archived = some t →
      ((sortByDate posts).get j).when_archived = some t' → t < t' → i < j)
  ∧ (∀ (posts : List CommunityPost) (i j : Fin (sortByDate posts).length) (t : Int),
      ((sortByDate posts).get i).when_archived = some t →
      ((sortByDate posts).get j).when_archived = none → i < j)
  ∧ (∀ (posts : List CommunityPost) (i j : Fin (sortByDate posts).length) (e e' : Int),
      ((sortByDate posts).get i).when_archived = none →
      ((sortByDate posts).get j).when_archived = none →
      ((sortByDate posts).get i).estimated_date = some e →
      ((sortByDate posts).get j).estimated_date = some e' → e < e' → i < j)
  ∧ (∀ (posts : List CommunityPost) (i j : Fin (sortByDate posts).length),
      (((sortByDate posts).get i).when_archived ≠ none ∨
        ((sortByDate posts).get i).estimated_date ≠ none) →
      ((sortByDate posts).get j).when_archived = none →
      ((sortByDate posts).get j).estimated_date = none → i < j)
  ∧ (∀ (posts : List CommunityPost), (posts.map (fun p => p.post_id)).Nodup →
      ∀ (p q : CommunityPost) (t : Int), p ∈ posts → q ∈ posts →
        p.when_archived = some t → q.when_archived = some (t + 1) →
        ∃ r r' : Int, dictLookup (fallbackRanks posts) p.post_id = some r ∧
          dictLookup (fallbackRanks posts) q.post_id = some r' ∧ r < r') := by
  have hs : ∀ posts : List CommunityPost,
      List.Sorted (byKey dateKey) (sortByDate posts) := fun posts =>
    stableSort_sorted _ posts
  refine ⟨?_, ?_, ?_, ?_, ?_⟩
  · intro posts i j t t' hi hj htt
    apply sorted_fin_lt (hs posts)
    intro hcon
    unfold byKey at hcon
    rw [dateKey_arch hj, dateKey_arch hi] at hcon
    unfold keyLe at hcon
    omega
  · intro posts i j t hi hj
    apply sorted_fin_lt (hs posts)
    intro hcon
    unfold byKey at hcon
    rw [dateKey_arch hi] at hcon
    cases hje : ((sortByDate posts).get j).estimated_date with
    | some e =>
      rw [dateKey_est hj hje] at hcon
      unfold keyLe at hcon
      omega
    | none =>
      rw [dateKey_resid hj hje] at hcon
      unfold keyLe at hcon
      omega
  · intro posts i j e e' hi hj hie hje hee
    apply sorted_fin_lt (hs posts)
    intro hcon
    unfold byKey at hcon
    rw [dateKey_est hj hje, dateKey_est hi hie] at hcon
    unfold keyLe at hcon
    omega
  · intro posts i j hior hj hje
    apply sorted_fin_lt (hs posts)
    intro hcon
    unfold byKey at hcon
    rw [dateKey_resid hj hje] at hcon
    cases hia : ((sortByDate posts).get i).when_archived with
    | some t =>
      rw [dateKey_arch hia] at hcon
      unfold keyLe at hcon
      omega
    | none =>
      cases hie : ((sortByDate posts).get i).estimated_date with
      | some e =>
        rw [dateKey_est hia hie] at hcon
        unfold keyLe at hcon
        omega
      | none =>
        rcases hior with h1 | h2
        · exact h1 hia
        · exact h2 hie
  · intro posts hnd p q t hp hq hparch hqarch
    have hpm : (p, t) ∈ sortedArchived posts :=
      (stableSort_perm _ _).mem_iff.mpr (archivedPairs_mem hp hparch)
    have hqm : (q, t + 1) ∈ sortedArchived posts :=
      (stableSort_perm _ _).mem_iff.mpr (archivedPairs_mem hq hqarch)
    obtain ⟨i, hi⟩ := List.mem_iff_get.mp hpm
    obtain ⟨j, hj⟩ := List.mem_iff_get.mp hqm
    have hsort : List.Sorted (byKey (fun pt : CommunityPost × Int => (0, pt.2)))
        (sortedArchived posts) := stableSort_sorted _ _
    have hij : i < j := by
      apply sorted_fin_lt hsort
      intro hcon
      rw [hi, hj] at hcon
      unfold byKey at hcon
      unfold keyLe at hcon
      simp only at hcon
      omega
    have hpl : dictLookup (fallbackRanks posts) p.post_id = some ((i : Nat) : Int) := by
      apply dictLookup_of_mem_nodup (fallbackRanks_keys_nodup hnd)
      have hm := fallbackRanks_rank_mem posts i
      rw [hi] at hm
      exact hm
    have hql : dictLookup (fallbackRanks posts) q.post_id = some ((j : Nat) : Int) := by
      apply dictLookup_of_mem_nodup (fallbackRanks_keys_nodup hnd)
      have hm := fallbackRanks_rank_mem posts j
      rw [hj] at hm
      exact hm
    exact ⟨((i : Nat) : Int), ((j : Nat) : Int), hpl, hql, by exact_mod_cast hij⟩

/-- Witness for C3: two posts archived at 10 and 11; the earlier-archived one
appears first in the date sort, and gets the strictly smaller fallback rank. -/
theorem claim_C3_fallback_order_witness :
    ((⟨0, by decide⟩ : Fin (sortByDate
        [{ basePost with post_id := "A".data, when_archived := some 10 },
         { basePost with post_id := "B".data, when_archived := some 11 }]).length) <
      ⟨1, by decide⟩)
  ∧ ∃ r r' : Int,
      dictLookup (fallbackRanks
        [{ basePost with post_id := "A".data, when_archived := some 10 },
         { basePost with post_id := "B".data, when_archived := some 11 }]) "A".data = some r ∧
      dictLookup (fallbackRanks
        [{ basePost with post_id := "A".data, when_archived := some 10 },
         { basePost with post_id := "B".data, when_archived := some 11 }]) "B".data = some r' ∧
      r < r' :=
  ⟨claim_C3_fallback_order.1
      [{ basePost with post_id := "A".data, when_archived := some 10 },
       { basePost with post_id := "B".data, when_archived := some 11 }]
      ⟨0, by decide⟩ ⟨1, by decide⟩ 10 11 (by decide) (by decide) (by decide),
   claim_C3_fallback_order.2.2.2.2
      [{ basePost with post_id := "A".data, when_archived := some 10 },
       { basePost with post_id := "B".data, when_archived := some 11 }] (by decide)
      { basePost with post_id := "A".data, when_archived := some 10 }
      { basePost with post_id := "B".data, when_archived := some 11 } 10
      (by decide) (by decide) (by decide) (by decide)⟩

/-! Lemmas for the membership-status reconciler. -/

lemma restore_fst (posts : List CommunityPost) (memberIds : List (List Char)) :
    ∀ records, (restoreMemberStatus posts memberIds records).1 =
      posts.map (fixMember memberIds) := by
  induction posts with
  | nil => intro records; rfl
  | cons p rest ih =>
    intro records
    simp only [restoreMemberStatus, fixMember, List.map_cons]
    by_cases hc : p.post_id ∈ memberIds ∧ p.is_members = false
    · rw [if_pos hc, if_pos hc]
      simp only [List.cons.injEq, true_and]
      rw [ih]
    · rw [if_neg hc, if_neg hc]
      simp only [List.cons.injEq, true_and]
      rw [ih]

lemma recordsAfter_cons (memberIds : List (List Char))
    (records : List (List Char × Option PostRecord)) (p : CommunityPost)
    (rest : List CommunityPost) :
    recordsAfter memberIds records (p :: rest) =
      recordsAfter memberIds
        (if p.post_id ∈ memberIds ∧ p.is_members = false
          then setRecordMember records p.post_id else records) rest := rfl

lemma restore_snd (posts : List CommunityPost) (memberIds : List (List Char)) :
    ∀ records, (restoreMemberStatus posts memberIds records).2 =
      recordsAfter memberIds records posts := by
  induction posts with
  | nil => intro records; rfl
  | cons p rest ih =>
    intro records
    rw [recordsAfter_cons]
    simp only [restoreMemberStatus]
    by_cases hc : p.post_id ∈ memberIds ∧ p.is_members = false
    · rw [if_pos hc, if_pos hc]
      exact ih _
    · rw [if_neg hc, if_neg hc]
      exact ih _

lemma fileLookup_set_same (records : List (List Char × Option PostRecord)) (pid : List Char) :
    fileLookup (setRecordMember records pid) pid =
      (fileLookup records pid).map (Option.map setTrue) := by
  induction records with
  | nil => rfl
  | cons kv rest ih =>
    obtain ⟨k, v⟩ := kv
    simp only [setRecordMember, List.map_cons] at ih ⊢
    by_cases hk : k = pid
    · rw [if_pos hk]
      simp [fileLookup, hk]
    · rw [if_neg hk]
      simp [fileLookup, hk, ih]

lemma fileLookup_set_other (records : List (List Char × Option PostRecord))
    (pid k : List Char) (h : k ≠ pid) :
    fileLookup (setRecordMember records pid) k = fileLookup records k := by
  induction records with
  | nil => rfl
  | cons kv rest ih =>
    obtain ⟨k', v⟩ := kv
    simp only [setRecordMember, List.map_cons] at ih ⊢
    by_cases hk : k' = pid
    · rw [if_pos hk]
      have hkk : k' ≠ k := by rw [hk]; exact fun he => h he.symm
      simp [fileLookup, hkk, ih]
    · rw [if_neg hk]
      simp [fileLookup, ih]

lemma updOpt_idem (o : Option (Option PostRecord)) :
    (o.map (Option.map setTrue)).map (Option.map setTrue) = o.map (Option.map setTrue) := by
  cases o with
  | none => rfl
  | some v =>
    cases v with
    | none => rfl
    | some rec => rfl

lemma recordsAfter_lookup (memberIds : List (List Char)) :
    ∀ (posts : List CommunityPost) (records : List (List Char × Option PostRecord))
      (pid : List Char),
      fileLookup (recordsAfter memberIds records posts) pid = fileLookup records pid ∨
      fileLookup (recordsAfter memberIds records posts) pid =
        (fileLookup records pid).map (Option.map setTrue)
  | [], _, _ => Or.inl rfl
  | p :: rest, records, pid => by
    rw [recordsAfter_cons]
    by_cases hc : p.post_id ∈ memberIds ∧ p.is_members = false
    · rw [if_pos hc]
      by_cases hpk : p.post_id = pid
      · subst hpk
        rcases recordsAfter_lookup memberIds rest (setRecordMember records p.post_id)
            p.post_id with h | h
        · right
          rw [h, fileLookup_set_same]
        · right
          rw [h, fileLookup_set_same, updOpt_idem]
      · rcases recordsAfter_lookup memberIds rest (setRecordMember records p.post_id)
            pid with h | h
        · left
          rw [h, fileLookup_set_other records p.post_id pid (fun he => hpk he.symm)]
        · right
          rw [h, fileLookup_set_other records p.post_id pid (fun he => hpk he.symm)]
    · rw [if_neg hc]
      exact recordsAfter_lookup memberIds rest records pid

lemma recordsAfter_lookup_set (memberIds : List (List Char))
    (posts : List CommunityPost) (records : List (List Char × Option PostRecord))
    (pid : List Char) (hm : pid ∈ memberIds)
    (hp : ∃ p ∈ posts, p.post_id = pid ∧ p.is_members = false) :
    fileLookup (recordsAfter memberIds records posts) pid =
      (fileLookup records pid).map (Option.map setTrue) := by
  obtain ⟨p, hpmem, hpid, hpf⟩ := hp
  obtain ⟨l₁, l₂, rfl⟩ := List.append_of_mem hpmem
  have hc : p.post_id ∈ memberIds ∧ p.is_members = false := by
    constructor
    · rw [hpid]; exact hm
    · exact hpf
  have key : recordsAfter memberIds records (l₁ ++ p :: l₂) =
      recordsAfter memberIds
        (setRecordMember (recordsAfter memberIds records l₁) p.post_id) l₂ := by
    show List.foldl _ records (l₁ ++ p :: l₂) = _
    rw [List.foldl_append, List.foldl_cons]
    simp only [if_pos hc]
    rfl
  rw [key]
  have hset : fileLookup (setRecordMember (recordsAfter memberIds records l₁) p.post_id) pid =
      (fileLookup records pid).map (Option.map setTrue) := by
    rw [← hpid] at hm ⊢
    rw [fileLookup_set_same]
    rcases recordsAfter_lookup memberIds l₁ records p.post_id with h | h
    · rw [h]
    · rw [h, updOpt_idem]
  rcases recordsAfter_lookup memberIds l₂
      (setRecordMember (recordsAfter memberIds records l₁) p.post_id) pid with h | h
  · rw [h, hset]
  · rw [h, hset, updOpt_idem]

/-- C4.  Membership-Status Reconciler: the in-memory pass is exactly the
per-post fix (so a post in the historical member set loaded with
`is_members = false` is corrected to `true`); the correction is persisted to
the post's parseable record; a post not in the historical set is returned
unchanged (so one currently `false` remains `false`); and neither the posts
nor the records are ever downgraded from member-only to public. -/
theorem claim_C4_member_restore :
    (∀ (posts : List CommunityPost) (memberIds : List (List Char))
        (records : List (List Char × Option PostRecord)),
      (restoreMemberStatus posts memberIds records).1 = posts.map (fixMember memberIds))
  ∧ (∀ (posts : List CommunityPost) (memberIds : List (List Char))
        (records : List (List Char × Option PostRecord)), ∀ p ∈ posts,
      p.post_id ∈ memberIds → p.is_members = false →
        { p with is_members := true } ∈ (restoreMemberStatus posts memberIds records).1)
  ∧ (∀ (memberIds : List (List Char)) (p : CommunityPost),
      p.post_id ∉ memberIds → fixMember memberIds p = p)
  ∧ (∀ (memberIds : List (List Char)) (p : CommunityPost),
      p.is_members = true → (fixMember memberIds p).is_members = true)
  ∧ (∀ (posts : List CommunityPost) (memberIds : List (List Char))
        (records : List (List Char × Option PostRecord)) (pid : List Char) (rec : PostRecord),
      pid ∈ memberIds → (∃ p ∈ posts, p.post_id = pid ∧ p.is_members = false) →
      fileLookup records pid = some (some rec) →
        fileLookup (restoreMemberStatus posts memberIds records).2 pid =
          some (some (setTrue rec)))
  ∧ (∀ (posts : List CommunityPost) (memberIds : List (List Char))
        (records : List (List Char × Option PostRecord)) (pid : List Char) (rec : PostRecord),
      fileLookup records pid = some (some rec) → rec.is_members = true →
        ∃ rec', fileLookup (restoreMemberStatus posts memberIds records).2 pid =
          some (some rec') ∧ rec'.is_members = true) := by
  refine ⟨fun posts m r => restore_fst posts m r, ?_, ?_, ?_, ?_, ?_⟩
  · intro posts m r p hp hm hf
    rw [restore_fst]
    apply List.mem_map.mpr
    refine ⟨p, hp, ?_⟩
    unfold fixMember
    rw [if_pos ⟨hm, hf⟩]
  · intro m p hnot
    unfold fixMember
    rw [if_neg (fun hc => hnot hc.1)]
  · intro m p htrue
    unfold fixMember
    by_cases hc : p.post_id ∈ m ∧ p.is_members = false
    · rw [if_pos hc]
    · rw [if_neg hc]
      exact htrue
  · intro posts m r pid rec hm hex hrec
    rw [restore_snd, recordsAfter_lookup_set m posts r pid hm hex, hrec]
    rfl
  · intro posts m r pid rec hrec htrue
    rw [restore_snd]
    rcases recordsAfter_lookup m posts r pid with h | h
    · exact ⟨rec, by rw [h, hrec], htrue⟩
    · refine ⟨setTrue rec, by rw [h, hrec]; rfl, rfl⟩

/-- Witness for C4: one post `A`, previously member-only, loaded with
`is_members = false`, with a parseable record on disk: the post is corrected
in memory and its record is rewritten with `is_members = true`. -/
theorem claim_C4_member_restore_witness :
    ({ basePost with post_id := "A".data, is_members := true } ∈
      (restoreMemberStatus [{ basePost with post_id := "A".data }] ["A".data]
        [("A".data, some baseRecord)]).1)
  ∧ fileLookup (restoreMemberStatus [{ basePost with post_id := "A".data }] ["A".data]
      [("A".data, some baseRecord)]).2 "A".data = some (some (setTrue baseRecord)) :=
  ⟨claim_C4_member_restore.2.1 [{ basePost with post_id := "A".data }] ["A".data]
      [("A".data, some baseRecord)] { basePost with post_id := "A".data }
      (by decide) (by decide) (by decide),
   claim_C4_member_restore.2.2.2.2.1 [{ basePost with post_id := "A".data }] ["A".data]
      [("A".data, some baseRecord)] "A".data baseRecord (by decide)
      ⟨{ basePost with post_id := "A".data }, by decide, by decide, by decide⟩ (by decide)⟩

/-! Lemmas for the repository loader. -/

lemma loadArchivedPosts_go (now : Int) :
    ∀ (files : List (Option (PostRecord × List (List Char))))
      (a : List CommunityPost) (n : Nat),
      files.foldl
        (fun acc f =>
          match f with
          | some (rec, imgs) => (acc.1 ++ [fromJson rec imgs now], acc.2)
          | none => (acc.1, acc.2 + 1))
        (a, n) =
      (a ++ (files.filterMap id).map (fun fi => fromJson fi.1 fi.2 now),
        n + files.countP (fun f => f.isNone))
  | [], a, n => by simp
  | none :: rest, a, n => by
    rw [List.foldl_cons]
    rw [loadArchivedPosts_go now rest a (n + 1)]
    simp only [List.filterMap_cons, List.countP_cons, id]
    refine congrArg₂ Prod.mk rfl ?_
    norm_num
    omega
  | some (rec, imgs) :: rest, a, n => by
    rw [List.foldl_cons]
    rw [loadArchivedPosts_go now rest (a ++ [fromJson rec imgs now]) n]
    simp only [List.filterMap_cons, List.countP_cons, id, List.map_cons]
    refine congrArg₂ Prod.mk ?_ ?_
    · rw [List.append_assoc, List.singleton_append]
    · simp

lemma loadArchivedPosts_some (now : Int)
    (files : List (Option (PostRecord × List (List Char)))) :
    loadArchivedPosts (some files) now =
      ((files.filterMap id).map (fun fi => fromJson fi.1 fi.2 now),
        files.countP (fun f => f.isNone)) := by
  show files.foldl _ ([], 0) = _
  rw [loadArchivedPosts_go now files [] 0]
  simp

/-- C6.  Repository Loader error policy: an absent root yields `([], 0)` and
an empty root yields `([], 0)`; in general the loaded posts are exactly one
`from_json` entity per parseable record (in traversal order) and the warning
count is exactly the number of unparseable records, so one malformed and two
valid records yield exactly two posts and one warning. -/
theorem claim_C6_loader :
    (∀ now : Int, loadArchivedPosts none now = ([], 0))
  ∧ (∀ now : Int, loadArchivedPosts (some []) now = ([], 0))
  ∧ (∀ (now : Int) (files : List (Option (PostRecord × List (List Char)))),
      (loadArchivedPosts (some files) now).1 =
        (files.filterMap id).map (fun fi => fromJson fi.1 fi.2 now))
  ∧ (∀ (now : Int) (files : List (Option (PostRecord × List (List Char)))),
      (loadArchivedPosts (some files) now).2 = files.countP (fun f => f.isNone))
  ∧ (∀ now : Int,
      (loadArchivedPosts
        (some [none, some (baseRecord, []), some (baseRecord, [])]) now).1.length = 2 ∧
      (loadArchivedPosts
        (some [none, some (baseRecord, []), some (baseRecord, [])]) now).2 = 1) := by
  refine ⟨fun now => rfl, fun now => rfl, ?_, ?_, ?_⟩
  · intro now files
    rw [loadArchivedPosts_some]
  · intro now files
    rw [loadArchivedPosts_some]
  · intro now
    rw [loadArchivedPosts_some]
    constructor
    · simp
    · simp [Option.isNone]

/-- C7.  Date-range filter: a post with no `estimated_date` is always kept
whatever the bounds; a dated post below a present start bound or above a
present end bound is excluded; and a dated post satisfying both bounds
inclusively (in particular one equal to a bound) is kept. -/
theorem claim_C7_date_filter :
    (∀ (posts : List CommunityPost) (s e : Option Int), ∀ p ∈ posts,
      p.estimated_date = none → p ∈ filterByDateRange posts s e)
  ∧ (∀ (posts : List CommunityPost) (e : Option Int) (d sv : Int), ∀ p ∈ posts,
      p.estimated_date = some d → d < sv → p ∉ filterByDateRange posts (some sv) e)
  ∧ (∀ (posts : List CommunityPost) (s : Option Int) (d ev : Int), ∀ p ∈ posts,
      p.estimated_date = some d → ev < d → p ∉ filterByDateRange posts s (some ev))
  ∧ (∀ (posts : List CommunityPost) (s e : Option Int) (d : Int), ∀ p ∈ posts,
      p.estimated_date = some d →
      (∀ sv, s = some sv → sv ≤ d) → (∀ ev, e = some ev → d ≤ ev) →
      p ∈ filterByDateRange posts s e) := by
  refine ⟨?_, ?_, ?_, ?_⟩
  · intro posts s e p hp hnone
    apply List.mem_filter.mpr
    refine ⟨hp, ?_⟩
    rw [hnone]
  · intro posts e d sv p hp hd hlt hmem
    have h := (List.mem_filter.mp hmem).2
    rw [hd] at h
    simp only [Bool.and_eq_true, Bool.not_eq_true'] at h
    rw [decide_eq_true hlt] at h
    exact Bool.noConfusion h.1
  · intro posts s d ev p hp hd hlt hmem
    have h := (List.mem_filter.mp hmem).2
    rw [hd] at h
    simp only [Bool.and_eq_true, Bool.not_eq_true'] at h
    rcases h with ⟨h1, h2⟩
    cases s with
    | none => rw [decide_eq_true hlt] at h2; exact Bool.noConfusion h2
    | some sv => rw [decide_eq_true hlt] at h2; exact Bool.noConfusion h2
  · intro posts s e d p hp hd hs he
    apply List.mem_filter.mpr
    refine ⟨hp, ?_⟩
    rw [hd]
    cases s with
    | none =>
      cases e with
      | none => rfl
      | some ev =>
        have hde : d ≤ ev := he ev rfl
        simp [decide_eq_false (not_lt.mpr hde)]
    | some sv =>
      have hsd : sv ≤ d := hs sv rfl
      cases e with
      | none => simp [decide_eq_false (not_lt.mpr hsd)]
      | some ev =>
        have hde : d ≤ ev := he ev rfl
        simp [decide_eq_false (not_lt.mpr hsd), decide_eq_false (not_lt.mpr hde)]

/-- Witness for C7 at a post dated 5 with bounds `[5, 7]` (start bound equal
to the date, hence the inclusive boundary case) and an undated post with the
same bounds. -/
theorem claim_C7_date_filter_witness :
    ({ basePost with post_id := "D".data, estimated_date := some 5 } ∈
      filterByDateRange [{ basePost with post_id := "D".data, estimated_date := some 5 }]
        (some 5) (some 7))
  ∧ ({ basePost with post_id := "E".data } ∈
      filterByDateRange [{ basePost with post_id := "E".data }] (some 5) (some 7)) :=
  ⟨claim_C7_date_filter.2.2.2
      [{ basePost with post_id := "D".data, estimated_date := some 5 }]
      (some 5) (some 7) 5 { basePost with post_id := "D".data, estimated_date := some 5 }
      (by decide) (by decide)
      (fun sv hsv => by cases hsv; decide) (fun ev hev => by cases hev; decide),
   claim_C7_date_filter.1
      [{ basePost with post_id := "E".data }] (some 5) (some 7)
      { basePost with post_id := "E".data } (by decide) (by decide)⟩

/-- C8.  Statistics: the public count is exactly the number of non-member
posts (so total = members + public), the oldest/newest fields are the
minimum/maximum estimated date over the posts that have one and are `none`
exactly when no post has a date, and the spec's two-post example evaluates
to `total = 2, members_only = 1, public = 1, oldest = newest =` the dated
post's date. -/
theorem claim_C8_statistics :
    (∀ posts : List CommunityPost,
      (getStatistics posts).public = posts.countP (fun p => !p.is_members))
  ∧ (∀ posts : List CommunityPost,
      (getStatistics posts).members_only + (getStatistics posts).public =
        (getStatistics posts).total_posts)
  ∧ (∀ posts : List CommunityPost,
      ((getStatistics posts).oldest_post = none ↔
        posts.filterMap (fun p => p.estimated_date) = []))
  ∧ (∀ (posts : List CommunityPost) (d : Int), (getStatistics posts).oldest_post = some d →
      (∃ p ∈ posts, p.estimated_date = some d) ∧
        ∀ p ∈ posts, ∀ d' : Int, p.estimated_date = some d' → d ≤ d')
  ∧ (∀ (posts : List CommunityPost) (d : Int), (getStatistics posts).newest_post = some d →
      (∃ p ∈ posts, p.estimated_date = some d) ∧
        ∀ p ∈ posts, ∀ d' : Int, p.estimated_date = some d' → d' ≤ d)
  ∧ getStatistics
      [{ basePost with estimated_date := some 1577836800, is_members := true }, basePost] =
      { total_posts := 2, members_only := 1, public := 1, with_images := 0, with_polls := 0,
        oldest_post := some 1577836800, newest_post := some 1577836800 } := by
  refine ⟨?_, ?_, ?_, ?_, ?_, by decide⟩
  · intro posts
    show posts.length - posts.countP (fun p => p.is_members) = _
    have h := List.length_eq_countP_add_countP (fun p : CommunityPost => p.is_members) posts
    have h2 : posts.countP (fun p => !p.is_members) =
        posts.countP (fun p : CommunityPost => decide ¬ p.is_members = true) := by
      apply List.countP_congr
      intro p _
      cases hpm : p.is_members
      · simp
      · simp
    rw [h2]
    omega
  · intro posts
    show posts.countP (fun p => p.is_members) +
      (posts.length - posts.countP (fun p => p.is_members)) = posts.length
    have h := List.countP_le_length (fun p : CommunityPost => p.is_members) (l := posts)
    omega
  · intro posts
    exact List.min?_eq_none_iff
  · intro posts d h
    have hd : (posts.filterMap (fun p => p.estimated_date)).min? = some d := h
    constructor
    · have hm := List.min?_mem min_choice hd
      obtain ⟨p, hp, hpe⟩ := List.mem_filterMap.mp hm
      exact ⟨p, hp, hpe⟩
    · intro p hp d' hpe
      have hle := (List.le_min?_iff (fun _ _ _ => le_min_iff) hd).mp (le_refl d)
      exact hle d' (List.mem_filterMap.mpr ⟨p, hp, hpe⟩)
  · intro posts d h
    have hd : (posts.filterMap (fun p => p.estimated_date)).max? = some d := h
    constructor
    · have hm := List.max?_mem max_choice hd
      obtain ⟨p, hp, hpe⟩ := List.mem_filterMap.mp hm
      exact ⟨p, hp, hpe⟩
    · intro p hp d' hpe
      have hle := (List.max?_le_iff (fun _ _ _ => max_le_iff) hd).mp (le_refl d)
      exact hle d' (List.mem_filterMap.mpr ⟨p, hp, hpe⟩)

/-- Witness for C8: on the spec's example the minimum property instantiates
at the single dated post. -/
theorem claim_C8_statistics_witness :
    ∃ p ∈ [{ basePost with estimated_date := some 1577836800, is_members := true }, basePost],
      p.estimated_date = some 1577836800 :=
  (claim_C8_statistics.2.2.2.1
    [{ basePost with estimated_date := some 1577836800, is_members := true }, basePost]
    1577836800 (by decide)).1

end YtArchive
